import Mathlib

/-!
# Verification of the Uniswap trading-paths data pipeline

Shallow embedding of `scripts/fetchData.js`: the GraphQL retry client
(`graphRequest`), the `ConcurrencyLimiter`, the paginated swap fetcher
(`fetchPoolSwapsSuperFast`), the daily/weekly aggregators
(`calculateVolumeAndFees`, `aggregateWeekly`, `calculateTotalVolume`) and the
per-chain pipeline in `main`.

Modelling conventions:
* JavaScript numbers and decimal strings (`amountUSD`, fee arithmetic) are
  modelled as exact rationals (`ℚ`); `parseFloat` of a decimal string is the
  corresponding rational, absence (falsy/`'0'`) is `Option`.
* A UTC date key `YYYY-MM-DD` produced by `toISOString().split('T')[0]` is
  modelled as the day number `timestamp / 86400` (the mapping from day numbers
  to fixed-width ISO date strings is strictly monotone and injective, so key
  equality and lexicographic key order coincide with `Nat`/`Int` order).
* The network is modelled as an oracle: `graphRequest` consumes a stream of
  per-attempt responses, the paginated fetcher consumes the list of pages the
  subgraph would serve at skips `0, 1000, 2000, ...`.
* The cooperative async semantics of the `ConcurrencyLimiter` is modelled as a
  labelled transition system whose events are the atomic synchronous segments
  of `run` (arrival check, completion in `finally`, resumption of a woken
  waiter re-entering the `while` loop).
-/

namespace UV

/-- A raw swap record as consumed by `calculateVolumeAndFees`:
`timestamp` (seconds), `amountUSD` (decimal string, `none` when absent/falsy
or the literal `'0'`), `pool.feeTier` (`none` when absent). -/
structure Swap where
  timestamp : Nat
  amountUSD : Option ℚ
  feeTier : Option Nat
  deriving DecidableEq, Repr

/-! ## GraphClient: `graphRequest` (fetchData.js lines 103-127) -/

/-- Outcome of one attempt of the `fetch` + `res.json()` step in
`graphRequest`: a transport failure (the `catch` path), a well-formed response
with an `errors` payload (`transient` models
`JSON.stringify(json.errors).includes('bad indexers')`), or data. -/
inductive Response where
  | transport
  | gqlErr (transient : Bool) (payload : String)
  | ok (data : Nat)
  deriving DecidableEq, Repr

/-- Errors surfaced by `graphRequest`: the re-thrown
`new Error(JSON.stringify(json.errors))` or the transport error. -/
inductive GErr where
  | graphql (payload : String)
  | transport
  deriving DecidableEq, Repr

/-- The retry loop of `graphRequest`, started at attempt `i` with `rem`
retries remaining.  Returns the outcome together with the list of backoff
delays (ms) performed, in order.  Note that the GraphQL-error `throw` sits
inside the `try`, so with retries remaining it falls into the `catch` and is
retried after the 2000 ms backoff; only the transient-pattern branch uses the
3000 ms backoff; any error reaching attempt `i = retries` is re-thrown. -/
def graphRequestGo (attempts : Nat → Response) : Nat → Nat → Except GErr Nat × List Nat
  | i, 0 =>
    match attempts i with
    | .ok d => (Except.ok d, [])
    | .gqlErr _ p => (Except.error (GErr.graphql p), [])
    | .transport => (Except.error GErr.transport, [])
  | i, rem + 1 =>
    match attempts i with
    | .ok d => (Except.ok d, [])
    | .gqlErr transient _ =>
      let rest := graphRequestGo attempts (i + 1) rem
      if transient then (rest.1, 3000 :: rest.2) else (rest.1, 2000 :: rest.2)
    | .transport =>
      let rest := graphRequestGo attempts (i + 1) rem
      (rest.1, 2000 :: rest.2)

/-- `graphRequest(url, query, variables, retries)`: attempts `0..retries`
drawn from the oracle `attempts`. -/
def graphRequest (attempts : Nat → Response) (retries : Nat) : Except GErr Nat × List Nat :=
  graphRequestGo attempts 0 retries

/-- Backoff that the `graphRequest` loop performs after a failed attempt
with retries remaining. -/
def sleepFor : Response → Nat
  | .gqlErr true _ => 3000
  | _ => 2000

/-! ## ConcurrencyLimiter (fetchData.js lines 80-101) -/

/-- Events of the limiter's cooperative async execution: a new caller reaching
the `while` check (`arrive`), a unit finishing and running its `finally` block
(`complete`), and a woken waiter re-evaluating the `while` condition
(`resume`). -/
inductive LimEv where
  | arrive (id : Nat)
  | complete (id : Nat)
  | resume (id : Nat)
  deriving DecidableEq, Repr

/-- Limiter state: ids currently executing (`this.running` is its length),
the FIFO `this.queue` of suspended callers, and waiters whose promise has been
resolved but whose continuation has not run yet. -/
structure LimState where
  running : List Nat
  queue : List Nat
  woken : List Nat
  deriving DecidableEq, Repr

/-- One atomic synchronous segment of `ConcurrencyLimiter.run`:
* `arrive`: the `while` check — acquire a slot (`this.running++`) when below
  the limit, else push onto `this.queue`;
* `complete`: the `finally` block — `this.running--`, then
  `this.queue.shift()` and resolve that single waiter (it becomes `woken`);
* `resume`: a woken waiter re-evaluates the `while` condition — acquire when a
  slot is free, else re-enqueue at the back. -/
def limStep (L : Nat) (s : LimState) : LimEv → LimState
  | .arrive id =>
    if s.running.length < L then { s with running := s.running ++ [id] }
    else { s with queue := s.queue ++ [id] }
  | .complete id =>
    if id ∈ s.running then
      let r := s.running.erase id
      match s.queue with
      | [] => { s with running := r }
      | w :: ws => { running := r, queue := ws, woken := s.woken ++ [w] }
    else s
  | .resume id =>
    if id ∈ s.woken then
      let wk := s.woken.erase id
      if s.running.length < L then
        { running := s.running ++ [id], queue := s.queue, woken := wk }
      else
        { running := s.running, queue := s.queue ++ [id], woken := wk }
    else s

/-- Run the limiter from the initial state over a sequence of events. -/
def limRun (L : Nat) (evs : List LimEv) : LimState :=
  evs.foldl (limStep L) ⟨[], [], []⟩

theorem limStep_length_le (L : Nat) (s : LimState) (ev : LimEv)
    (h : s.running.length ≤ L) : (limStep L s ev).running.length ≤ L := by
  cases ev with
  | arrive id =>
    simp only [limStep]
    split
    · simpa using ‹s.running.length < L›
    · simpa using h
  | complete id =>
    simp only [limStep]
    split
    · rename_i hmem
      have herase : (s.running.erase id).length = s.running.length - 1 :=
        List.length_erase_of_mem hmem
      have hpos : 0 < s.running.length := List.length_pos.mpr (List.ne_nil_of_mem hmem)
      cases hq : s.queue with
      | nil => simp [herase]; omega
      | cons w ws => simp [herase]; omega
    · simpa using h
  | resume id =>
    simp only [limStep]
    split
    · split
      · simpa using ‹s.running.length < L›
      · simpa using h
    · simpa using h

/-! ## PaginatedSwapFetcher: `fetchPoolSwapsSuperFast` (fetchData.js 141-212) -/

/-- Result of one `fetchBatch` call: the page's swaps and the `hasMore` flag. -/
structure BatchResult where
  swaps : List Swap
  hasMore : Bool
  deriving DecidableEq, Repr

/-- `fetchBatch(skip)` against the oracle `pages` (where `pages[i]` is the
subgraph's response at `skip = 1000 * i`; a failed request is modelled as an
empty page, exactly as the `catch` in `fetchBatch` does): an empty (or
missing) page yields `{swaps: [], hasMore: false}`; otherwise `hasMore` is
`swaps.length === 1000`. -/
def fetchBatch (pages : List (List Swap)) (idx : Nat) : BatchResult :=
  let s := pages.getD idx []
  if s.length = 0 then ⟨[], false⟩ else ⟨s, s.length == 1000⟩

/-- The list of `fetchBatch` results a wave issues for page indices
`lo, lo+1, ..., lo+k-1`, in issue order. -/
def batchResults (pages : List (List Swap)) : Nat → Nat → List BatchResult
  | _, 0 => []
  | lo, k + 1 => fetchBatch pages lo :: batchResults pages (lo + 1) k

/-- The skip values (in request order) of a wave covering page indices
`lo, ..., lo+k-1`; each request uses `skip = 1000 * pageIndex`. -/
def skipsFrom : Nat → Nat → List Nat
  | _, 0 => []
  | lo, k + 1 => 1000 * lo :: skipsFrom (lo + 1) k

/-- Concatenation of pages `lo, ..., lo+k-1` (missing pages are empty). -/
def pagesJoin (pages : List (List Swap)) : Nat → Nat → List Swap
  | _, 0 => []
  | lo, k + 1 => pages.getD lo [] ++ pagesJoin pages (lo + 1) k

/-- Outcome of processing one wave's results (the `for (const result of
results)` loop): accumulated swaps, the running `emptyCount`, and whether one
of the two `return` statements fired. -/
structure ChunkOut where
  acc : List Swap
  ec : Nat
  stopped : Bool
  deriving DecidableEq, Repr

/-- The result-processing loop: a non-empty page is appended and resets
`emptyCount`, an empty page increments it; then `emptyCount >= 5` and
`!result.hasMore` each trigger an immediate return. -/
def processChunk : List BatchResult → List Swap → Nat → ChunkOut
  | [], acc, ec => ⟨acc, ec, false⟩
  | r :: rs, acc, ec =>
    let acc1 := if r.swaps.length > 0 then acc ++ r.swaps else acc
    let ec1 := if r.swaps.length > 0 then 0 else ec + 1
    if 5 ≤ ec1 then ⟨acc1, ec1, true⟩
    else if r.hasMore then processChunk rs acc1 ec1
    else ⟨acc1, ec1, true⟩

/-- The outer `for (let chunk = 0; chunk < 10; chunk++)` loop: each iteration
issues a wave of 50 batch requests (skips advancing by 1000 per request, all
50 issued before any result is examined) and then processes the wave's
results; also returns the skip values of every request issued. -/
def runChunks (pages : List (List Swap)) : Nat → Nat → List Swap → Nat → List Swap × List Nat
  | 0, _, acc, _ => (acc, [])
  | n + 1, idx, acc, ec =>
    let results := batchResults pages idx 50
    let out := processChunk results acc ec
    if out.stopped then (out.acc, skipsFrom idx 50)
    else
      let rest := runChunks pages n (idx + 50) out.acc out.ec
      (rest.1, skipsFrom idx 50 ++ rest.2)

/-- `fetchPoolSwapsSuperFast`: fetch page 0; empty → return `[]`; not full →
return it alone; otherwise run up to 10 waves starting at page index 1 with
`emptyCount = 0`.  Returns the accumulated swaps and the skip values of all
page requests issued beyond the first. -/
def fetchPoolSwapsSuperFast (pages : List (List Swap)) : List Swap × List Nat :=
  let first := fetchBatch pages 0
  if first.swaps.length = 0 then ([], [])
  else if first.hasMore then runChunks pages 10 1 first.swaps 0
  else (first.swaps, [])

/-! ## Aggregator: `calculateVolumeAndFees` (fetchData.js 214-244) -/

/-- The UTC date key of a swap, as a day number: `toISOString().split('T')[0]`
of `timestamp * 1000` identifies exactly the UTC calendar day
`timestamp / 86400`. -/
def dayKey (s : Swap) : Nat :=
  s.timestamp / 86400

/-- The USD volume a swap contributes, or `none` when the record is skipped:
the code skips (`continue`) when `amountUSD` is falsy or the literal `'0'`,
otherwise takes `Math.abs(parseFloat(amountUSD))`. -/
def swapVolume (s : Swap) : Option ℚ :=
  match s.amountUSD with
  | none => none
  | some a => if a = 0 then none else some (if a.num < 0 then -a else a)

/-- `parseInt(swap.pool?.feeTier || '3000') / 1000000`. -/
def feeRate (s : Swap) : ℚ :=
  (s.feeTier.getD 3000 : ℚ) / 1000000

/-- Volume contribution of a swap (0 when skipped). -/
def volOf (s : Swap) : ℚ :=
  match swapVolume s with
  | none => 0
  | some v => v

/-- Fee contribution of a swap (0 when skipped): `volumeUSD * feeRate`. -/
def feeOf (s : Swap) : ℚ :=
  volOf s * feeRate s

/-- One daily accumulator: `dailyData[dateKey] = {timestamp, volume, fees}`;
`timestamp` is set when the bucket is created and never updated. -/
structure DailyBucket where
  dateKey : Nat
  timestamp : Nat
  volume : ℚ
  fees : ℚ
  deriving DecidableEq, Repr

/-- `if (!dailyData[dateKey]) dailyData[dateKey] = {timestamp, volume: 0,
fees: 0}` — create the bucket at the back iff the key is absent (JS objects
with string keys preserve insertion order, modelled as an ordered
association list). -/
def ensureDay : List DailyBucket → Nat → Nat → List DailyBucket
  | [], k, ts => [⟨k, ts, 0, 0⟩]
  | b :: bs, k, ts => if b.dateKey = k then b :: bs else b :: ensureDay bs k ts

/-- `dailyData[dateKey].volume += volumeUSD; dailyData[dateKey].fees +=
feesUSD` — update the (unique) bucket with the given key. -/
def addToDay : List DailyBucket → Nat → ℚ → ℚ → List DailyBucket
  | [], _, _, _ => []
  | b :: bs, k, v, f =>
    if b.dateKey = k then ⟨b.dateKey, b.timestamp, b.volume + v, b.fees + f⟩ :: bs
    else b :: addToDay bs k v f

/-- The body of the `for (const swap of swaps)` loop: create the day's bucket
if needed, then either skip (zero/absent `amountUSD`) or accumulate volume
and fees. -/
def addSwap (acc : List DailyBucket) (s : Swap) : List DailyBucket :=
  let acc1 := ensureDay acc (dayKey s) s.timestamp
  match swapVolume s with
  | none => acc1
  | some v => addToDay acc1 (dayKey s) v (v * feeRate s)

/-- `calculateVolumeAndFees(swaps)`: fold the loop body over the swaps;
`Object.values(dailyData)` is the bucket list in insertion order. -/
def calculateVolumeAndFees (swaps : List Swap) : List DailyBucket :=
  swaps.foldl addSwap []

/-- The first bucket with the given key. -/
def lookupDay (l : List DailyBucket) (k : Nat) : Option DailyBucket :=
  l.find? (fun b => b.dateKey == k)

/-- The first swap of the list whose UTC date is `k`. -/
def firstSwapAt (swaps : List Swap) (k : Nat) : Option Swap :=
  swaps.find? (fun s => dayKey s == k)

/-- Total USD volume over a given UTC date: sum of the volume contributions
of the swaps of that date. -/
def volAt (swaps : List Swap) (k : Nat) : ℚ :=
  ((swaps.filter (fun s => dayKey s == k)).map volOf).sum

/-- Total fees over a given UTC date. -/
def feeAt (swaps : List Swap) (k : Nat) : ℚ :=
  ((swaps.filter (fun s => dayKey s == k)).map feeOf).sum

/-! ## Aggregator: `aggregateWeekly` (fetchData.js 246-270) and
`calculateTotalVolume` (272-274) -/

/-- `date.getUTCDay()` for day number `d` (1970-01-01, day 0, was a
Thursday, so JS returns `(d + 4) % 7` with 0 = Sunday). -/
def dayOfWeek (d : Int) : Int :=
  (d + 4) % 7

/-- The Monday key the code computes: `diff = (dayOfWeek === 0 ? -6 : 1) -
dayOfWeek; monday = date + diff days` truncated to 00:00 UTC, i.e. the day
number of that Monday. -/
def mondayKey (d : Int) : Int :=
  d + ((if dayOfWeek d = 0 then (-6 : Int) else 1) - dayOfWeek d)

/-- Week key of a daily bucket: the code rebuilds a `Date` from the bucket's
`timestamp` field, so the relevant day number is `timestamp / 86400`. -/
def weekKeyOfTs (ts : Nat) : Int :=
  mondayKey ((ts / 86400 : Nat) : Int)

/-- One weekly accumulator: `weekly[key] = {date: key, volume, fees}`. -/
structure WeeklyBucket where
  date : Int
  volume : ℚ
  fees : ℚ
  deriving DecidableEq, Repr

/-- `if (!weekly[key]) weekly[key] = {date: key, volume: 0, fees: 0}`. -/
def ensureWeek : List WeeklyBucket → Int → List WeeklyBucket
  | [], k => [⟨k, 0, 0⟩]
  | w :: ws, k => if w.date = k then w :: ws else w :: ensureWeek ws k

/-- `weekly[key].volume += day.volume; weekly[key].fees += day.fees`. -/
def addToWeek : List WeeklyBucket → Int → ℚ → ℚ → List WeeklyBucket
  | [], _, _, _ => []
  | w :: ws, k, v, f =>
    if w.date = k then ⟨w.date, w.volume + v, w.fees + f⟩ :: ws
    else w :: addToWeek ws k v f

/-- The body of the `for (const day of dailyData)` loop in `aggregateWeekly`. -/
def addDay (acc : List WeeklyBucket) (day : DailyBucket) : List WeeklyBucket :=
  let k := weekKeyOfTs day.timestamp
  addToWeek (ensureWeek acc k) k day.volume day.fees

/-- Ascending order on weekly buckets by date key; the fixed-width ISO date
strings the code compares with `localeCompare` order exactly like the
underlying day numbers. -/
def weekLE (a b : WeeklyBucket) : Prop :=
  a.date ≤ b.date

instance : DecidableRel weekLE := fun a b => inferInstanceAs (Decidable (a.date ≤ b.date))

instance : IsTotal WeeklyBucket weekLE := ⟨fun a b => Int.le_total a.date b.date⟩

instance : IsTrans WeeklyBucket weekLE := ⟨fun _ _ _ hab hbc => le_trans hab hbc⟩

/-- `aggregateWeekly(dailyData)`: group by Monday key, then
`Object.values(weekly).sort((a, b) => a.date.localeCompare(b.date))`. -/
def aggregateWeekly (dailyData : List DailyBucket) : List WeeklyBucket :=
  List.insertionSort weekLE (dailyData.foldl addDay [])

/-- `calculateTotalVolume(dailyData)`: `reduce((sum, day) => sum +
day.volume, 0)`. -/
def calculateTotalVolume (dailyData : List DailyBucket) : ℚ :=
  dailyData.foldl (fun sum day => sum + day.volume) 0

/-! ## PipelineOrchestrator: `main` (fetchData.js 276-374) -/

/-- The pool object returned by the pool-details query. -/
structure PoolInfo where
  pid : String
  sym0 : String
  sym1 : String
  poolFeeTier : Nat
  deriving DecidableEq, Repr

/-- Per-chain metadata recorded on success. -/
structure PoolMeta where
  poolId : String
  pair : String
  feeTier : Nat
  deriving DecidableEq, Repr

/-- One configured chain together with the oracle for its network traffic:
`pool` is the result of the pool-details query (`none` models `!data.pool`),
`pages` is the subgraph's paginated swap data. -/
structure ChainInput where
  name : String
  pool : Option PoolInfo
  pages : List (List Swap)
  deriving DecidableEq, Repr

/-- Result of one chain task (`{chain, success, poolMetadata?, weeklyData?}`). -/
structure ChainTaskResult where
  chain : String
  ok : Bool
  weekly : List WeeklyBucket
  meta : Option PoolMeta
  deriving DecidableEq, Repr

/-- `{poolId, pair: SYM0/SYM1, feeTier}` (the formatted `feePercent` string
carries no extra information). -/
def mkPoolMeta (p : PoolInfo) : PoolMeta :=
  ⟨p.pid, p.sym0 ++ "/" ++ p.sym1, p.poolFeeTier⟩

/-- One chain task in `main`: fail on missing pool, fail on zero swaps,
otherwise bucket daily and aggregate weekly. -/
def runChain (ci : ChainInput) : ChainTaskResult :=
  match ci.pool with
  | none => ⟨ci.name, false, [], none⟩
  | some pool =>
    let swaps := (fetchPoolSwapsSuperFast ci.pages).1
    if swaps.length = 0 then ⟨ci.name, false, [], none⟩
    else ⟨ci.name, true, aggregateWeekly (calculateVolumeAndFees swaps), some (mkPoolMeta pool)⟩

/-- The final artifact plus the progress counters: only successful chains
contribute entries to `chains` / `poolMetadata`. -/
structure PipelineOutput where
  chains : List (String × List WeeklyBucket)
  poolMetadata : List (String × PoolMeta)
  successful : Nat
  failed : Nat
  deriving DecidableEq, Repr

/-- `main`: run every chain task, count successes and failures, assemble the
output from the successful results only. -/
def runPipeline (cs : List ChainInput) : PipelineOutput :=
  let results := cs.map runChain
  { chains := results.filterMap (fun r => if r.ok then some (r.chain, r.weekly) else none)
    poolMetadata := results.filterMap
      (fun r => if r.ok then r.meta.map (fun m => (r.chain, m)) else none)
    successful := results.countP (fun r => r.ok)
    failed := results.countP (fun r => !r.ok) }

/-! ## Theorems: GraphClient retry policy (C2) -/

theorem graphRequestGo_spec (attempts : Nat → Response) :
    ∀ rem i : Nat,
      (graphRequestGo attempts i rem).2.length ≤ rem ∧
      (∀ p : String, (graphRequestGo attempts i rem).1 = Except.error (GErr.graphql p) →
        (graphRequestGo attempts i rem).2.length = rem ∧
        ∃ t : Bool, attempts (i + rem) = Response.gqlErr t p) ∧
      (∀ k : Nat, k < (graphRequestGo attempts i rem).2.length →
        (graphRequestGo attempts i rem).2.getD k 0 = sleepFor (attempts (i + k))) := by
  intro rem
  induction rem with
  | zero =>
    intro i
    cases h : attempts i with
    | ok d => simp [graphRequestGo, h]
    | gqlErr t p =>
      refine ⟨by simp [graphRequestGo, h], ?_, by simp [graphRequestGo, h]⟩
      intro q hq
      simp only [graphRequestGo, h] at hq
      have hpq : p = q := by
        cases hq
        rfl
      exact ⟨by simp [graphRequestGo, h], ⟨t, by simp [h, hpq]⟩⟩
    | transport =>
      refine ⟨by simp [graphRequestGo, h], ?_, by simp [graphRequestGo, h]⟩
      intro q hq
      simp [graphRequestGo, h] at hq
  | succ rem ih =>
    intro i
    obtain ⟨ih1, ih2, ih3⟩ := ih (i + 1)
    cases h : attempts i with
    | ok d => simp [graphRequestGo, h]
    | gqlErr t p =>
      have hgo : graphRequestGo attempts i (rem + 1) =
          ((graphRequestGo attempts (i + 1) rem).1,
            (if t then 3000 else 2000) :: (graphRequestGo attempts (i + 1) rem).2) := by
        cases t <;> simp [graphRequestGo, h]
      refine ⟨?_, ?_, ?_⟩
      · rw [hgo]
        simpa using ih1
      · intro q hq
        rw [hgo] at hq ⊢
        simp only at hq
        obtain ⟨hlen, ht, hatt⟩ := ih2 q hq
        refine ⟨by simpa using hlen, ⟨ht, ?_⟩⟩
        have : i + (rem + 1) = i + 1 + rem := by omega
        rw [this]
        exact hatt
      · intro k hk
        rw [hgo]
        rw [hgo] at hk
        cases k with
        | zero =>
          simp [h, sleepFor]
          cases t <;> simp
        | succ k =>
          simp only [List.getD_cons_succ]
          have : i + (k + 1) = i + 1 + k := by omega
          rw [this]
          exact ih3 k (by simpa using hk)
    | transport =>
      have hgo : graphRequestGo attempts i (rem + 1) =
          ((graphRequestGo attempts (i + 1) rem).1,
            2000 :: (graphRequestGo attempts (i + 1) rem).2) := by
        simp [graphRequestGo, h]
      refine ⟨?_, ?_, ?_⟩
      · rw [hgo]
        simpa using ih1
      · intro q hq
        rw [hgo] at hq ⊢
        simp only at hq
        obtain ⟨hlen, ht, hatt⟩ := ih2 q hq
        refine ⟨by simpa using hlen, ⟨ht, ?_⟩⟩
        have : i + (rem + 1) = i + 1 + rem := by omega
        rw [this]
        exact hatt
      · intro k hk
        rw [hgo]
        rw [hgo] at hk
        cases k with
        | zero => simp [h, sleepFor]
        | succ k =>
          simp only [List.getD_cons_succ]
          have : i + (k + 1) = i + 1 + k := by omega
          rw [this]
          exact ih3 k (by simpa using hk)

/-- Oracle for the C2 counterexample: attempt 0 yields a well-formed GraphQL
error response whose text does not match the transient pattern; every later
attempt succeeds. -/
def att0 : Nat → Response :=
  fun n => if n = 0 then Response.gqlErr false "boom" else Response.ok 42

/-- **C2** counterexample: a response whose error payload does not match the
transient "bad indexers" pattern is NOT surfaced immediately.  With the
default budget of 2 retries, the non-transient GraphQL error on attempt 0 is
caught by the `catch` block, retried after a 2000 ms backoff, and the request
succeeds on attempt 1 — contradicting the claim that such an error fails
immediately with a `GraphQLError` and no further retry attempt. -/
theorem c2_counterexample :
    att0 0 = Response.gqlErr false "boom" ∧
    graphRequest att0 2 = (Except.ok 42, [2000]) ∧
    ∀ p : String, (graphRequest att0 2).1 ≠ Except.error (GErr.graphql p) := by
  refine ⟨rfl, rfl, ?_⟩
  intro p h
  rw [show (graphRequest att0 2).1 = Except.ok 42 from rfl] at h
  exact Except.noConfusion h

/-- **C2** (amended): `graphRequest` retries every failed attempt — transport
errors and GraphQL-error responses alike — while retries remain, because the
GraphQL-error `throw` is caught by the function's own `catch`; a
`GraphQLError` is surfaced only once all retries are exhausted, and it then
carries the payload of the final attempt.  Each retried attempt backs off
3000 ms when its error text matches the transient "bad indexers" pattern and
2000 ms otherwise (so in particular a non-transient GraphQL error is retried
after the 2000 ms backoff, not surfaced immediately). -/
theorem c2_graphql_error_retry_policy (attempts : Nat → Response) (retries : Nat) :
    (graphRequest attempts retries).2.length ≤ retries ∧
    (∀ p : String, (graphRequest attempts retries).1 = Except.error (GErr.graphql p) →
      (graphRequest attempts retries).2.length = retries ∧
      ∃ t : Bool, attempts retries = Response.gqlErr t p) ∧
    (∀ k : Nat, k < (graphRequest attempts retries).2.length →
      (graphRequest attempts retries).2.getD k 0 = sleepFor (attempts k)) := by
  have h := graphRequestGo_spec attempts retries 0
  simpa [graphRequest] using h

/-- Oracle for the C2 witness: every attempt yields a transient-pattern
GraphQL error. -/
def attW : Nat → Response :=
  fun _ => Response.gqlErr true "indexers are bad indexers"

theorem c2_graphql_error_retry_policy_witness :
    (graphRequest attW 1).2.length = 1 ∧
    (∃ t : Bool, attW 1 = Response.gqlErr t "indexers are bad indexers") ∧
    (graphRequest attW 1).2.getD 0 0 = sleepFor (attW 0) := by
  have h := c2_graphql_error_retry_policy attW 1
  refine ⟨(h.2.1 "indexers are bad indexers" rfl).1,
    (h.2.1 "indexers are bad indexers" rfl).2, h.2.2 0 ?_⟩
  rw [(h.2.1 "indexers are bad indexers" rfl).1]
  omega

/-! ## Theorems: ConcurrencyLimiter (C3) -/

theorem limFold_le (L : Nat) :
    ∀ (evs : List LimEv) (s : LimState), s.running.length ≤ L →
      (evs.foldl (limStep L) s).running.length ≤ L := by
  intro evs
  induction evs with
  | nil => intro s h; simpa using h
  | cons e es ih =>
    intro s h
    exact ih _ (limStep_length_le L s e h)

/-- **C3**: the `ConcurrencyLimiter` transition system (arrival at the
`while` check, completion in `finally`, resumption of a woken waiter) never
has more than `L` units running after any event sequence; when a unit
completes while the queue is non-empty, exactly the queue's head waiter is
released (FIFO) and the rest of the queue is untouched; and a caller arriving
while `L` units run is enqueued at the back instead of running. -/
theorem c3_limiter_bound_and_fifo (L : Nat) (evs : List LimEv) :
    (limRun L evs).running.length ≤ L ∧
    (∀ (s : LimState) (id w : Nat) (ws : List Nat),
      s.queue = w :: ws → id ∈ s.running →
      limStep L s (LimEv.complete id) = ⟨s.running.erase id, ws, s.woken ++ [w]⟩) ∧
    (∀ (s : LimState) (id : Nat), L ≤ s.running.length →
      limStep L s (LimEv.arrive id) = { s with queue := s.queue ++ [id] }) := by
  refine ⟨limFold_le L evs ⟨[], [], []⟩ (by simp), ?_, ?_⟩
  · intro s id w ws hq hmem
    simp [limStep, hmem, hq]
  · intro s id hlen
    simp [limStep, Nat.not_lt.mpr hlen]

theorem c3_limiter_bound_and_fifo_witness :
    (limRun 2 [LimEv.arrive 1, LimEv.arrive 2, LimEv.arrive 3,
      LimEv.complete 1]).running.length ≤ 2 ∧
    limStep 2 ⟨[5, 6], [7, 8], []⟩ (LimEv.complete 5) = ⟨[6], [8], [7]⟩ ∧
    limStep 2 ⟨[5, 6], [9], []⟩ (LimEv.arrive 4) = ⟨[5, 6], [9, 4], []⟩ :=
  ⟨(c3_limiter_bound_and_fifo 2 [LimEv.arrive 1, LimEv.arrive 2, LimEv.arrive 3,
      LimEv.complete 1]).1,
   (c3_limiter_bound_and_fifo 2 []).2.1 ⟨[5, 6], [7, 8], []⟩ 5 7 [8] rfl (by decide),
   (c3_limiter_bound_and_fifo 2 []).2.2 ⟨[5, 6], [9], []⟩ 4 (by decide)⟩

/-! ## Theorems: bounded waves (C9) -/

theorem skipsFrom_length : ∀ (k lo : Nat), (skipsFrom lo k).length = k := by
  intro k
  induction k with
  | zero => intro lo; simp [skipsFrom]
  | succ k ih => intro lo; simp [skipsFrom, ih]

theorem skipsFrom_append :
    ∀ (a lo b : Nat), skipsFrom lo a ++ skipsFrom (lo + a) b = skipsFrom lo (a + b) := by
  intro a
  induction a with
  | zero => intro lo b; simp [skipsFrom]
  | succ a ih =>
    intro lo b
    have h1 : lo + (a + 1) = lo + 1 + a := by omega
    have h2 : a + 1 + b = a + b + 1 := by omega
    simp only [skipsFrom, h1, h2, List.cons_append]
    rw [ih (lo + 1) b]

theorem runChunks_skips (pages : List (List Swap)) :
    ∀ (n idx : Nat) (acc : List Swap) (ec : Nat),
      ∃ w : Nat, w ≤ n ∧ (runChunks pages n idx acc ec).2 = skipsFrom idx (50 * w) := by
  intro n
  induction n with
  | zero =>
    intro idx acc ec
    exact ⟨0, le_refl 0, by simp [runChunks, skipsFrom]⟩
  | succ n ih =>
    intro idx acc ec
    by_cases hstop : (processChunk (batchResults pages idx 50) acc ec).stopped = true
    · refine ⟨1, by omega, ?_⟩
      simp [runChunks, hstop]
    · obtain ⟨w, hw, hs⟩ := ih (idx + 50) (processChunk (batchResults pages idx 50) acc ec).acc
        (processChunk (batchResults pages idx 50) acc ec).ec
      refine ⟨w + 1, by omega, ?_⟩
      have hmul : 50 * (w + 1) = 50 + 50 * w := by ring
      have hrc : runChunks pages (n + 1) idx acc ec =
          ((runChunks pages n (idx + 50) (processChunk (batchResults pages idx 50) acc ec).acc
              (processChunk (batchResults pages idx 50) acc ec).ec).1,
            skipsFrom idx 50 ++
              (runChunks pages n (idx + 50) (processChunk (batchResults pages idx 50) acc ec).acc
                (processChunk (batchResults pages idx 50) acc ec).ec).2) := by
        simp only [runChunks]
        rw [if_neg hstop]
      rw [hrc, hmul]
      simp only
      rw [hs, skipsFrom_append]

/-- **C9**: beyond the first page, pagination proceeds in at most 10 waves of
exactly 50 page requests each, with skip offsets `1000, 2000, 3000, ...`
advancing by 1000 per request; hence at most 500 additional page requests are
ever issued (and the fetch, being a total function of the page oracle, always
terminates). -/
theorem c9_bounded_waves (pages : List (List Swap)) :
    ∃ w : Nat, w ≤ 10 ∧
      (fetchPoolSwapsSuperFast pages).2 = skipsFrom 1 (50 * w) ∧
      (fetchPoolSwapsSuperFast pages).2.length = 50 * w ∧
      (fetchPoolSwapsSuperFast pages).2.length ≤ 500 := by
  by_cases h1 : (fetchBatch pages 0).swaps.length = 0
  · refine ⟨0, by omega, ?_, ?_, ?_⟩ <;> simp [fetchPoolSwapsSuperFast, h1, skipsFrom]
  · by_cases h2 : (fetchBatch pages 0).hasMore
    · obtain ⟨w, hw, hs⟩ := runChunks_skips pages 10 1 (fetchBatch pages 0).swaps 0
      refine ⟨w, hw, ?_, ?_, ?_⟩
      · simpa [fetchPoolSwapsSuperFast, h1, h2] using hs
      · simp [fetchPoolSwapsSuperFast, h1, h2, hs, skipsFrom_length]
      · simp only [fetchPoolSwapsSuperFast, h1, h2]
        simp [hs, skipsFrom_length]
        omega
    · refine ⟨0, by omega, ?_, ?_, ?_⟩ <;>
        simp [fetchPoolSwapsSuperFast, h1, h2, skipsFrom]

/-! ## Daily-bucketing lemmas (for C4, C6, C10) -/

theorem lookupDay_nil (k : Nat) : lookupDay [] k = none := rfl

theorem lookupDay_cons (b : DailyBucket) (bs : List DailyBucket) (k : Nat) :
    lookupDay (b :: bs) k = if b.dateKey = k then some b else lookupDay bs k := by
  by_cases h : b.dateKey = k <;> simp [lookupDay, h]

theorem ensureDay_cons (b : DailyBucket) (bs : List DailyBucket) (k ts : Nat) :
    ensureDay (b :: bs) k ts =
      if b.dateKey = k then b :: bs else b :: ensureDay bs k ts := rfl

theorem addToDay_cons (b : DailyBucket) (bs : List DailyBucket) (k : Nat) (v f : ℚ) :
    addToDay (b :: bs) k v f =
      if b.dateKey = k then ⟨b.dateKey, b.timestamp, b.volume + v, b.fees + f⟩ :: bs
      else b :: addToDay bs k v f := rfl

theorem lookupDay_ensure_self (acc : List DailyBucket) (k ts : Nat) :
    lookupDay (ensureDay acc k ts) k = some ((lookupDay acc k).getD ⟨k, ts, 0, 0⟩) := by
  induction acc with
  | nil => simp [ensureDay, lookupDay]
  | cons b bs ih =>
    by_cases h : b.dateKey = k
    · simp [ensureDay_cons, lookupDay_cons, h]
    · rw [ensureDay_cons, if_neg h, lookupDay_cons, if_neg h, lookupDay_cons, if_neg h]
      exact ih

theorem lookupDay_ensure_other (acc : List DailyBucket) (k ts k' : Nat) (h : k' ≠ k) :
    lookupDay (ensureDay acc k ts) k' = lookupDay acc k' := by
  induction acc with
  | nil => simp [ensureDay, lookupDay_cons, lookupDay_nil, Ne.symm h]
  | cons b bs ih =>
    by_cases hb : b.dateKey = k
    · simp [ensureDay_cons, hb]
    · rw [ensureDay_cons, if_neg hb, lookupDay_cons, lookupDay_cons]
      by_cases hb' : b.dateKey = k'
      · simp [hb']
      · rw [if_neg hb', if_neg hb']
        exact ih

theorem lookupDay_addTo_self (acc : List DailyBucket) (k : Nat) (v f : ℚ)
    (b : DailyBucket) (h : lookupDay acc k = some b) :
    lookupDay (addToDay acc k v f) k =
      some ⟨b.dateKey, b.timestamp, b.volume + v, b.fees + f⟩ := by
  induction acc with
  | nil => simp [lookupDay] at h
  | cons c cs ih =>
    rw [lookupDay_cons] at h
    by_cases hc : c.dateKey = k
    · rw [if_pos hc] at h
      injection h with hcb
      subst hcb
      rw [addToDay_cons, if_pos hc, lookupDay_cons]
      simp [hc]
    · rw [if_neg hc] at h
      rw [addToDay_cons, if_neg hc, lookupDay_cons, if_neg hc]
      exact ih h

theorem lookupDay_addTo_other (acc : List DailyBucket) (k : Nat) (v f : ℚ)
    (k' : Nat) (h : k' ≠ k) :
    lookupDay (addToDay acc k v f) k' = lookupDay acc k' := by
  induction acc with
  | nil => simp [addToDay]
  | cons c cs ih =>
    by_cases hc : c.dateKey = k
    · have hc' : ¬c.dateKey = k' := by
        rw [hc]
        exact Ne.symm h
      rw [addToDay_cons, if_pos hc, lookupDay_cons, lookupDay_cons, if_neg hc',
        if_neg hc']
    · rw [addToDay_cons, if_neg hc, lookupDay_cons, lookupDay_cons]
      by_cases hc' : c.dateKey = k'
      · simp [hc']
      · rw [if_neg hc', if_neg hc']
        exact ih

theorem lookupDay_addSwap_self (acc : List DailyBucket) (s : Swap) :
    lookupDay (addSwap acc s) (dayKey s) =
      some (match lookupDay acc (dayKey s) with
        | none => ⟨dayKey s, s.timestamp, volOf s, feeOf s⟩
        | some b => ⟨b.dateKey, b.timestamp, b.volume + volOf s, b.fees + feeOf s⟩) := by
  have hens := lookupDay_ensure_self acc (dayKey s) s.timestamp
  cases hv : swapVolume s with
  | none =>
    have hvol : volOf s = 0 := by simp [volOf, hv]
    have hfee : feeOf s = 0 := by simp [feeOf, hvol]
    rw [show addSwap acc s = ensureDay acc (dayKey s) s.timestamp from by
      simp [addSwap, hv]]
    rw [hens]
    cases hl : lookupDay acc (dayKey s) with
    | none => simp [hl, hvol, hfee]
    | some b => simp [hl, hvol, hfee]
  | some v =>
    have hvol : volOf s = v := by simp [volOf, hv]
    have hfee : feeOf s = v * feeRate s := by simp [feeOf, hvol]
    rw [show addSwap acc s =
        addToDay (ensureDay acc (dayKey s) s.timestamp) (dayKey s) v (v * feeRate s) from by
      simp [addSwap, hv]]
    cases hl : lookupDay acc (dayKey s) with
    | none =>
      rw [hl] at hens
      rw [lookupDay_addTo_self _ _ _ _ _ hens]
      simp [hvol, hfee]
    | some b =>
      rw [hl] at hens
      rw [lookupDay_addTo_self _ _ _ _ _ hens]
      simp [hvol, hfee]

theorem lookupDay_addSwap_other (acc : List DailyBucket) (s : Swap) (k' : Nat)
    (h : k' ≠ dayKey s) :
    lookupDay (addSwap acc s) k' = lookupDay acc k' := by
  cases hv : swapVolume s with
  | none =>
    rw [show addSwap acc s = ensureDay acc (dayKey s) s.timestamp from by
      simp [addSwap, hv]]
    exact lookupDay_ensure_other acc (dayKey s) s.timestamp k' h
  | some v =>
    rw [show addSwap acc s =
        addToDay (ensureDay acc (dayKey s) s.timestamp) (dayKey s) v (v * feeRate s) from by
      simp [addSwap, hv]]
    rw [lookupDay_addTo_other _ _ _ _ _ h]
    exact lookupDay_ensure_other acc (dayKey s) s.timestamp k' h

theorem firstSwapAt_cons (s : Swap) (rest : List Swap) (k : Nat) :
    firstSwapAt (s :: rest) k = if dayKey s = k then some s else firstSwapAt rest k := by
  by_cases h : dayKey s = k <;> simp [firstSwapAt, h]

theorem volAt_cons_pos (s : Swap) (rest : List Swap) (k : Nat) (h : dayKey s = k) :
    volAt (s :: rest) k = volOf s + volAt rest k := by
  simp [volAt, List.filter_cons, h]

theorem volAt_cons_neg (s : Swap) (rest : List Swap) (k : Nat) (h : ¬dayKey s = k) :
    volAt (s :: rest) k = volAt rest k := by
  simp [volAt, List.filter_cons, h]

theorem feeAt_cons_pos (s : Swap) (rest : List Swap) (k : Nat) (h : dayKey s = k) :
    feeAt (s :: rest) k = feeOf s + feeAt rest k := by
  simp [feeAt, List.filter_cons, h]

theorem feeAt_cons_neg (s : Swap) (rest : List Swap) (k : Nat) (h : ¬dayKey s = k) :
    feeAt (s :: rest) k = feeAt rest k := by
  simp [feeAt, List.filter_cons, h]

/-- Gauss-style accumulator invariant for the daily fold: the bucket at key
`k` after folding `swaps` onto `acc` is the bucket of `acc` (if any, with its
original timestamp) plus the contributions of `swaps` at that date, or a
fresh bucket stamped with the first matching swap's timestamp. -/
theorem foldl_addSwap_lookup (swaps : List Swap) :
    ∀ (acc : List DailyBucket) (k : Nat),
      lookupDay (swaps.foldl addSwap acc) k =
        match lookupDay acc k with
        | some b =>
          some ⟨b.dateKey, b.timestamp, b.volume + volAt swaps k, b.fees + feeAt swaps k⟩
        | none =>
          match firstSwapAt swaps k with
          | some s0 => some ⟨k, s0.timestamp, volAt swaps k, feeAt swaps k⟩
          | none => none := by
  induction swaps with
  | nil =>
    intro acc k
    simp only [List.foldl_nil, volAt, feeAt, List.filter_nil, List.map_nil,
      List.sum_nil, add_zero, firstSwapAt, List.find?_nil]
    cases hl : lookupDay acc k with
    | none => rfl
    | some b => rfl
  | cons s rest ih =>
    intro acc k
    rw [List.foldl_cons]
    by_cases h : dayKey s = k
    · subst h
      rw [ih (addSwap acc s) (dayKey s)]
      rw [lookupDay_addSwap_self acc s]
      cases hl : lookupDay acc (dayKey s) with
      | none =>
        simp only [hl]
        rw [volAt_cons_pos s rest (dayKey s) rfl, feeAt_cons_pos s rest (dayKey s) rfl]
        rw [firstSwapAt_cons, if_pos rfl]
      | some b =>
        simp only [hl]
        rw [volAt_cons_pos s rest (dayKey s) rfl, feeAt_cons_pos s rest (dayKey s) rfl]
        simp [add_assoc]
    · rw [ih (addSwap acc s) k]
      rw [lookupDay_addSwap_other acc s k (fun hh => h hh.symm)]
      rw [volAt_cons_neg s rest k h, feeAt_cons_neg s rest k h]
      rw [firstSwapAt_cons, if_neg h]

/-- The daily fold from the empty object, per key. -/
theorem calculateVolumeAndFees_lookup (swaps : List Swap) (k : Nat) :
    lookupDay (calculateVolumeAndFees swaps) k =
      match firstSwapAt swaps k with
      | some s0 => some ⟨k, s0.timestamp, volAt swaps k, feeAt swaps k⟩
      | none => none := by
  have h := foldl_addSwap_lookup swaps [] k
  simpa [calculateVolumeAndFees, lookupDay] using h

theorem ensureDay_of_mem (acc : List DailyBucket) (k ts : Nat)
    (h : k ∈ acc.map (fun b => b.dateKey)) : ensureDay acc k ts = acc := by
  induction acc with
  | nil => simp at h
  | cons b bs ih =>
    rw [ensureDay_cons]
    by_cases hb : b.dateKey = k
    · rw [if_pos hb]
    · rw [if_neg hb]
      have hk : k ∈ bs.map (fun b => b.dateKey) := by
        simp only [List.map_cons, List.mem_cons] at h
        rcases h with h | h
        · exact absurd h.symm hb
        · exact h
      rw [ih hk]

theorem ensureDay_of_not_mem (acc : List DailyBucket) (k ts : Nat)
    (h : k ∉ acc.map (fun b => b.dateKey)) :
    ensureDay acc k ts = acc ++ [⟨k, ts, 0, 0⟩] := by
  induction acc with
  | nil => simp [ensureDay]
  | cons b bs ih =>
    have hb : ¬b.dateKey = k := by
      intro hh
      exact h (by simp [hh])
    rw [ensureDay_cons, if_neg hb, List.cons_append]
    rw [ih (fun hh => h (by simp [hh]))]

theorem keys_addToDay (acc : List DailyBucket) (k : Nat) (v f : ℚ) :
    (addToDay acc k v f).map (fun b => b.dateKey) = acc.map (fun b => b.dateKey) := by
  induction acc with
  | nil => simp [addToDay]
  | cons c cs ih =>
    rw [addToDay_cons]
    by_cases hc : c.dateKey = k
    · rw [if_pos hc]
      simp
    · rw [if_neg hc]
      simp [ih]

theorem keys_addSwap (acc : List DailyBucket) (s : Swap) :
    (addSwap acc s).map (fun b => b.dateKey) =
      if dayKey s ∈ acc.map (fun b => b.dateKey) then acc.map (fun b => b.dateKey)
      else acc.map (fun b => b.dateKey) ++ [dayKey s] := by
  have hkeys : (addSwap acc s).map (fun b => b.dateKey) =
      (ensureDay acc (dayKey s) s.timestamp).map (fun b => b.dateKey) := by
    cases hv : swapVolume s with
    | none => simp [addSwap, hv]
    | some v => simp [addSwap, hv, keys_addToDay]
  rw [hkeys]
  by_cases hm : dayKey s ∈ acc.map (fun b => b.dateKey)
  · rw [ensureDay_of_mem acc _ _ hm, if_pos hm]
  · rw [ensureDay_of_not_mem acc _ _ hm, if_neg hm]
    simp

theorem nodupKeys_foldl (swaps : List Swap) :
    ∀ acc : List DailyBucket, (acc.map (fun b => b.dateKey)).Nodup →
      ((swaps.foldl addSwap acc).map (fun b => b.dateKey)).Nodup := by
  induction swaps with
  | nil => intro acc h; simpa using h
  | cons s rest ih =>
    intro acc h
    rw [List.foldl_cons]
    apply ih
    rw [keys_addSwap]
    by_cases hm : dayKey s ∈ acc.map (fun b => b.dateKey)
    · rwa [if_pos hm]
    · rw [if_neg hm]
      simp [List.nodup_append, h, hm]

theorem nodupKeys_calculate (swaps : List Swap) :
    ((calculateVolumeAndFees swaps).map (fun b => b.dateKey)).Nodup :=
  nodupKeys_foldl swaps [] (by simp)

theorem lookupDay_of_mem_nodup (l : List DailyBucket) (b : DailyBucket)
    (hn : (l.map (fun b => b.dateKey)).Nodup) (hb : b ∈ l) :
    lookupDay l b.dateKey = some b := by
  induction l with
  | nil => cases hb
  | cons c cs ih =>
    rw [List.map_cons, List.nodup_cons] at hn
    rw [lookupDay_cons]
    rcases List.mem_cons.mp hb with rfl | hb'
    · rw [if_pos rfl]
    · by_cases hc : c.dateKey = b.dateKey
      · exfalso
        apply hn.1
        rw [hc]
        exact List.mem_map.mpr ⟨b, hb', rfl⟩
      · rw [if_neg hc]
        exact ih hn.2 hb'

theorem calcScenario1 :
    calculateVolumeAndFees
        [⟨1000000, some 100, some 3000⟩, ⟨1000050, some 200, some 3000⟩] =
      [⟨11, 1000000, 300, 9 / 10⟩] := by
  simp [calculateVolumeAndFees, addSwap, ensureDay, addToDay, swapVolume, volOf, feeOf,
    feeRate, dayKey]
  norm_num

theorem calcScenario2 :
    calculateVolumeAndFees [⟨86500, some 100, some 3000⟩] =
      [⟨1, 86500, 100, 3 / 10⟩] := by
  simp [calculateVolumeAndFees, addSwap, ensureDay, addToDay, swapVolume, volOf, feeOf,
    feeRate, dayKey]
  norm_num

/-- **C4**: daily bucketing produces exactly one bucket per distinct UTC
date key of the input swaps (keys are pairwise distinct, and a date key
occurs iff some swap has that UTC date); every bucket's volume is the sum of
`|amountUSD|` over the swaps of its date with a present, non-zero
`amountUSD`, and its fees are the sum of `|amountUSD| * feeTier / 1000000`
(feeTier defaulting to 3000 when absent) over those swaps, zero/absent
amounts contributing nothing; in particular two same-day swaps of 100 and
200 USD at fee tier 3000 yield the single bucket with volume 300 and fees
9/10 = 0.9. -/
theorem c4_daily_bucketing (swaps : List Swap) :
    ((calculateVolumeAndFees swaps).map (fun b => b.dateKey)).Nodup ∧
    (∀ k : Nat, (∃ b ∈ calculateVolumeAndFees swaps, b.dateKey = k) ↔
      ∃ s ∈ swaps, dayKey s = k) ∧
    (∀ b ∈ calculateVolumeAndFees swaps,
      b.volume = volAt swaps b.dateKey ∧ b.fees = feeAt swaps b.dateKey) ∧
    calculateVolumeAndFees
        [⟨1000000, some 100, some 3000⟩, ⟨1000050, some 200, some 3000⟩] =
      [⟨11, 1000000, 300, 9 / 10⟩] := by
  refine ⟨nodupKeys_calculate swaps, ?_, ?_, calcScenario1⟩
  · intro k
    constructor
    · rintro ⟨b, hb, rfl⟩
      have hl := lookupDay_of_mem_nodup _ b (nodupKeys_calculate swaps) hb
      have hcl := calculateVolumeAndFees_lookup swaps b.dateKey
      cases hf : firstSwapAt swaps b.dateKey with
      | none =>
        rw [hf] at hcl
        rw [hcl] at hl
        cases hl
      | some s0 =>
        refine ⟨s0, List.mem_of_find?_eq_some hf, ?_⟩
        simpa using List.find?_some hf
    · rintro ⟨s, hs, rfl⟩
      have hcl := calculateVolumeAndFees_lookup swaps (dayKey s)
      cases hf : firstSwapAt swaps (dayKey s) with
      | none =>
        exfalso
        have hcon := List.find?_eq_none.mp hf s hs
        simp at hcon
      | some s0 =>
        rw [hf] at hcl
        exact ⟨_, List.mem_of_find?_eq_some hcl, rfl⟩
  · intro b hb
    have hl := lookupDay_of_mem_nodup _ b (nodupKeys_calculate swaps) hb
    have hcl := calculateVolumeAndFees_lookup swaps b.dateKey
    cases hf : firstSwapAt swaps b.dateKey with
    | none =>
      rw [hf] at hcl
      rw [hcl] at hl
      cases hl
    | some s0 =>
      rw [hf] at hcl
      rw [hcl] at hl
      injection hl with hb2
      constructor <;> rw [← hb2]

theorem c4_daily_bucketing_witness :
    (⟨11, 1000000, 300, 9 / 10⟩ : DailyBucket).volume =
      volAt [⟨1000000, some 100, some 3000⟩, ⟨1000050, some 200, some 3000⟩] 11 ∧
    (⟨11, 1000000, 300, 9 / 10⟩ : DailyBucket).fees =
      feeAt [⟨1000000, some 100, some 3000⟩, ⟨1000050, some 200, some 3000⟩] 11 :=
  (c4_daily_bucketing
    [⟨1000000, some 100, some 3000⟩, ⟨1000050, some 200, some 3000⟩]).2.2.1
    ⟨11, 1000000, 300, 9 / 10⟩
    (by rw [calcScenario1]; exact List.mem_singleton.mpr rfl)

/-- **C6** counterexample: the swap at timestamp 86500 (00:01:40 UTC on
1970-01-02, day number 1) produces a bucket whose `timestamp` field is the
swap's raw timestamp 86500, not the bucket start `1 * 86400 = 86400`;
the code stores the first seen swap's timestamp, never truncating to
midnight. -/
theorem c6_counterexample :
    calculateVolumeAndFees [⟨86500, some 100, some 3000⟩] =
      [⟨1, 86500, 100, 3 / 10⟩] ∧
    ¬(86500 : Nat) = 1 * 86400 :=
  ⟨calcScenario2, by decide⟩

/-- **C6** (amended): a daily bucket's `timestamp` field is the raw
timestamp of the *first* swap encountered for that UTC date — it lies within
the bucket's UTC calendar day (`dateKey * 86400 ≤ timestamp <
(dateKey + 1) * 86400`) but is not in general the 00:00:00 UTC bucket
start. -/
theorem c6_bucket_timestamp_in_day (swaps : List Swap) (b : DailyBucket)
    (hb : b ∈ calculateVolumeAndFees swaps) :
    b.dateKey * 86400 ≤ b.timestamp ∧ b.timestamp < (b.dateKey + 1) * 86400 ∧
    (firstSwapAt swaps b.dateKey).map (fun s => s.timestamp) = some b.timestamp := by
  have hl := lookupDay_of_mem_nodup _ b (nodupKeys_calculate swaps) hb
  have hcl := calculateVolumeAndFees_lookup swaps b.dateKey
  cases hf : firstSwapAt swaps b.dateKey with
  | none =>
    rw [hf] at hcl
    rw [hcl] at hl
    cases hl
  | some s0 =>
    rw [hf] at hcl
    rw [hcl] at hl
    injection hl with hb2
    have hds : dayKey s0 = b.dateKey := by simpa using List.find?_some hf
    have hts : s0.timestamp = b.timestamp := by rw [← hb2]
    have hdiv : s0.timestamp / 86400 = b.dateKey := hds
    refine ⟨by omega, by omega, by simp [hts]⟩

theorem c6_bucket_timestamp_in_day_witness :
    (1 : Nat) * 86400 ≤ 86500 ∧ (86500 : Nat) < (1 + 1) * 86400 ∧
    (firstSwapAt [⟨86500, some 100, some 3000⟩] 1).map
      (fun s => s.timestamp) = some 86500 :=
  c6_bucket_timestamp_in_day [⟨86500, some 100, some 3000⟩]
    ⟨1, 86500, 100, 3 / 10⟩
    (by rw [calcScenario2]; exact List.mem_singleton.mpr rfl)

/-- **C10**: when every swap of some UTC date has a zero or absent
`amountUSD`, the bucket for that date is still emitted (it is created by the
`if (!dailyData[dateKey])` step before the `continue` skip) and carries
volume 0 and fees 0, rather than the date being omitted. -/
theorem c10_all_zero_day_still_bucketed (swaps : List Swap) (k : Nat)
    (hex : ∃ s ∈ swaps, dayKey s = k)
    (hzero : ∀ s ∈ swaps, dayKey s = k → swapVolume s = none) :
    ∃ b ∈ calculateVolumeAndFees swaps, b.dateKey = k ∧ b.volume = 0 ∧ b.fees = 0 := by
  obtain ⟨s, hs, hks⟩ := hex
  cases hf : firstSwapAt swaps k with
  | none =>
    exfalso
    have hcon := List.find?_eq_none.mp hf s hs
    simp [hks] at hcon
  | some s0 =>
    have hcl := calculateVolumeAndFees_lookup swaps k
    rw [hf] at hcl
    have hvol : volAt swaps k = 0 := by
      apply List.sum_eq_zero
      intro x hx
      simp only [List.mem_map] at hx
      obtain ⟨s1, hs1, rfl⟩ := hx
      have hs1f := List.mem_filter.mp hs1
      have hk1 : dayKey s1 = k := by simpa using hs1f.2
      have hz := hzero s1 hs1f.1 hk1
      simp [volOf, hz]
    have hfee : feeAt swaps k = 0 := by
      apply List.sum_eq_zero
      intro x hx
      simp only [List.mem_map] at hx
      obtain ⟨s1, hs1, rfl⟩ := hx
      have hs1f := List.mem_filter.mp hs1
      have hk1 : dayKey s1 = k := by simpa using hs1f.2
      have hz := hzero s1 hs1f.1 hk1
      simp [feeOf, volOf, hz]
    exact ⟨⟨k, s0.timestamp, volAt swaps k, feeAt swaps k⟩,
      List.mem_of_find?_eq_some hcl, rfl, hvol, hfee⟩

theorem c10_all_zero_day_still_bucketed_witness :
    (∃ s ∈ [(⟨100, none, some 500⟩ : Swap)], dayKey s = 0) ∧
    ∃ b ∈ calculateVolumeAndFees [(⟨100, none, some 500⟩ : Swap)],
      b.dateKey = 0 ∧ b.volume = 0 ∧ b.fees = 0 :=
  ⟨by decide,
   c10_all_zero_day_still_bucketed [⟨100, none, some 500⟩] 0 (by decide) (by decide)⟩

/-! ## Weekly-aggregation lemmas (for C5, C7) -/

theorem ensureWeek_cons (w : WeeklyBucket) (ws : List WeeklyBucket) (k : Int) :
    ensureWeek (w :: ws) k = if w.date = k then w :: ws else w :: ensureWeek ws k := rfl

theorem addToWeek_cons (w : WeeklyBucket) (ws : List WeeklyBucket) (k : Int) (v f : ℚ) :
    addToWeek (w :: ws) k v f =
      if w.date = k then ⟨w.date, w.volume + v, w.fees + f⟩ :: ws
      else w :: addToWeek ws k v f := rfl

theorem bump_week_sum (acc : List WeeklyBucket) (k : Int) (v f : ℚ) :
    ((addToWeek (ensureWeek acc k) k v f).map (fun w => w.volume)).sum =
      ((acc.map (fun w => w.volume)).sum) + v := by
  induction acc with
  | nil => simp [ensureWeek, addToWeek]
  | cons w ws ih =>
    by_cases hw : w.date = k
    · rw [ensureWeek_cons, if_pos hw, addToWeek_cons, if_pos hw]
      simp only [List.map_cons, List.sum_cons]
      ring
    · rw [ensureWeek_cons, if_neg hw, addToWeek_cons, if_neg hw]
      simp only [List.map_cons, List.sum_cons, ih]
      ring

theorem foldl_addDay_sum (days : List DailyBucket) :
    ∀ acc : List WeeklyBucket,
      (((days.foldl addDay acc).map (fun w => w.volume)).sum) =
        ((acc.map (fun w => w.volume)).sum) + ((days.map (fun d => d.volume)).sum) := by
  induction days with
  | nil => intro acc; simp
  | cons d rest ih =>
    intro acc
    rw [List.foldl_cons, ih (addDay acc d)]
    show ((addToWeek (ensureWeek acc (weekKeyOfTs d.timestamp)) (weekKeyOfTs d.timestamp)
      d.volume d.fees).map (fun w => w.volume)).sum + _ = _
    rw [bump_week_sum]
    simp only [List.map_cons, List.sum_cons]
    ring

theorem foldl_volume_sum (l : List DailyBucket) :
    ∀ c : ℚ, l.foldl (fun sum day => sum + day.volume) c =
      c + ((l.map (fun d => d.volume)).sum) := by
  induction l with
  | nil => intro c; simp
  | cons d rest ih =>
    intro c
    rw [List.foldl_cons, ih (c + d.volume)]
    simp only [List.map_cons, List.sum_cons]
    ring

/-- **C5**: the total volume computed from the daily buckets equals the sum
of the volumes of all weekly buckets produced by `aggregateWeekly` on the
same daily buckets — grouping into weeks and sorting both preserve the total
volume. -/
theorem c5_weekly_volume_preserving (dailyData : List DailyBucket) :
    calculateTotalVolume dailyData =
      ((aggregateWeekly dailyData).map (fun w => w.volume)).sum := by
  have hsort : ((List.insertionSort weekLE (dailyData.foldl addDay [])).map
      (fun w => w.volume)).sum =
      (((dailyData.foldl addDay []).map (fun w => w.volume)).sum) :=
    List.Perm.sum_eq ((List.perm_insertionSort weekLE _).map (fun w => w.volume))
  rw [aggregateWeekly, hsort, foldl_addDay_sum dailyData [], calculateTotalVolume,
    foldl_volume_sum dailyData 0]
  simp

theorem bump_week_mem (acc : List WeeklyBucket) (k : Int) (v f : ℚ) :
    ∃ w ∈ addToWeek (ensureWeek acc k) k v f, w.date = k := by
  induction acc with
  | nil => exact ⟨⟨k, 0 + v, 0 + f⟩, by simp [ensureWeek, addToWeek], rfl⟩
  | cons w ws ih =>
    by_cases hw : w.date = k
    · rw [ensureWeek_cons, if_pos hw, addToWeek_cons, if_pos hw]
      exact ⟨⟨w.date, w.volume + v, w.fees + f⟩, List.mem_cons_self _ _, hw⟩
    · rw [ensureWeek_cons, if_neg hw, addToWeek_cons, if_neg hw]
      obtain ⟨w0, hmem, hk⟩ := ih
      exact ⟨w0, List.mem_cons_of_mem _ hmem, hk⟩

theorem mem_date_ensureWeek (acc : List WeeklyBucket) (k' k : Int)
    (h : ∃ w ∈ acc, w.date = k) : ∃ w ∈ ensureWeek acc k', w.date = k := by
  induction acc with
  | nil => simp at h
  | cons w ws ih =>
    by_cases hw : w.date = k'
    · rw [ensureWeek_cons, if_pos hw]
      exact h
    · rw [ensureWeek_cons, if_neg hw]
      obtain ⟨w0, hmem, hk⟩ := h
      rcases List.mem_cons.mp hmem with rfl | hmem'
      · exact ⟨w0, List.mem_cons_self _ _, hk⟩
      · obtain ⟨w1, hmem1, hk1⟩ := ih ⟨w0, hmem', hk⟩
        exact ⟨w1, List.mem_cons_of_mem _ hmem1, hk1⟩

theorem mem_date_addToWeek (acc : List WeeklyBucket) (k' : Int) (v f : ℚ) (k : Int)
    (h : ∃ w ∈ acc, w.date = k) : ∃ w ∈ addToWeek acc k' v f, w.date = k := by
  induction acc with
  | nil => simp at h
  | cons w ws ih =>
    obtain ⟨w0, hmem, hk⟩ := h
    by_cases hw : w.date = k'
    · rw [addToWeek_cons, if_pos hw]
      rcases List.mem_cons.mp hmem with rfl | hmem'
      · exact ⟨⟨w0.date, w0.volume + v, w0.fees + f⟩, List.mem_cons_self _ _, hk⟩
      · exact ⟨w0, List.mem_cons_of_mem _ hmem', hk⟩
    · rw [addToWeek_cons, if_neg hw]
      rcases List.mem_cons.mp hmem with rfl | hmem'
      · exact ⟨w0, List.mem_cons_self _ _, hk⟩
      · obtain ⟨w1, hmem1, hk1⟩ := ih ⟨w0, hmem', hk⟩
        exact ⟨w1, List.mem_cons_of_mem _ hmem1, hk1⟩

theorem foldl_addDay_preserves (days : List DailyBucket) :
    ∀ (acc : List WeeklyBucket) (k : Int), (∃ w ∈ acc, w.date = k) →
      ∃ w ∈ days.foldl addDay acc, w.date = k := by
  induction days with
  | nil => intro acc k h; simpa using h
  | cons d rest ih =>
    intro acc k h
    rw [List.foldl_cons]
    exact ih (addDay acc d) k
      (mem_date_addToWeek _ _ _ _ _ (mem_date_ensureWeek _ _ _ h))

theorem foldl_addDay_mem (days : List DailyBucket) :
    ∀ (acc : List WeeklyBucket) (day : DailyBucket), day ∈ days →
      ∃ w ∈ days.foldl addDay acc, w.date = weekKeyOfTs day.timestamp := by
  induction days with
  | nil => intro acc day h; cases h
  | cons d rest ih =>
    intro acc day h
    rw [List.foldl_cons]
    rcases List.mem_cons.mp h with rfl | h'
    · exact foldl_addDay_preserves rest (addDay acc day) _ (bump_week_mem acc _ _ _)
    · exact ih (addDay acc d) day h'

/-- **C7**: weekly aggregation assigns each daily bucket to the Monday
starting its ISO week — a Sunday-dated day maps to the Monday six days
earlier, a Monday-dated day maps to itself — and the emitted weekly sequence
is sorted ascending by date key. -/
theorem c7_weekly_alignment_and_sorted :
    (∀ d : Int, dayOfWeek d = 0 → mondayKey d = d - 6) ∧
    (∀ d : Int, dayOfWeek d = 1 → mondayKey d = d) ∧
    (∀ dailyData : List DailyBucket,
      List.Pairwise weekLE (aggregateWeekly dailyData)) ∧
    (∀ (dailyData : List DailyBucket) (day : DailyBucket), day ∈ dailyData →
      ∃ w ∈ aggregateWeekly dailyData, w.date = weekKeyOfTs day.timestamp) := by
  refine ⟨?_, ?_, ?_, ?_⟩
  · intro d h
    rw [mondayKey, if_pos h, h]
    ring
  · intro d h
    have h0 : ¬dayOfWeek d = 0 := by rw [h]; decide
    rw [mondayKey, if_neg h0, h]
    ring
  · intro dailyData
    exact List.sorted_insertionSort weekLE (dailyData.foldl addDay [])
  · intro dailyData day hday
    obtain ⟨w, hmem, hk⟩ := foldl_addDay_mem dailyData [] day hday
    exact ⟨w, (List.mem_insertionSort weekLE).mpr hmem, hk⟩

theorem c7_weekly_alignment_and_sorted_witness :
    mondayKey 3 = 3 - 6 ∧ mondayKey 4 = 4 ∧
    ∃ w ∈ aggregateWeekly [⟨1, 86500, 100, 3 / 10⟩],
      w.date = weekKeyOfTs 86500 :=
  ⟨c7_weekly_alignment_and_sorted.1 3 (by decide),
   c7_weekly_alignment_and_sorted.2.1 4 (by decide),
   c7_weekly_alignment_and_sorted.2.2.2 [⟨1, 86500, 100, 3 / 10⟩]
     ⟨1, 86500, 100, 3 / 10⟩ (List.mem_singleton.mpr rfl)⟩

/-! ## Pagination stop-condition lemmas (for C1) -/

theorem pagesJoin_append (pages : List (List Swap)) :
    ∀ (a lo b : Nat),
      pagesJoin pages lo a ++ pagesJoin pages (lo + a) b = pagesJoin pages lo (a + b) := by
  intro a
  induction a with
  | zero => intro lo b; simp [pagesJoin]
  | succ a ih =>
    intro lo b
    have h1 : lo + (a + 1) = lo + 1 + a := by omega
    have h2 : a + 1 + b = a + b + 1 := by omega
    simp only [pagesJoin, h1, h2, List.append_assoc]
    rw [ih (lo + 1) b]

theorem fetchBatch_full (pages : List (List Swap)) (i : Nat)
    (h : (pages.getD i []).length = 1000) :
    fetchBatch pages i = ⟨pages.getD i [], true⟩ := by
  simp only [fetchBatch]
  rw [h]
  simp

theorem fetchBatch_empty (pages : List (List Swap)) (i : Nat)
    (hz : (pages.getD i []).length = 0) :
    fetchBatch pages i = ⟨[], false⟩ := by
  simp only [fetchBatch]
  rw [hz]
  simp

theorem fetchBatch_shortpage (pages : List (List Swap)) (i : Nat)
    (hz : ¬(pages.getD i []).length = 0)
    (hne : ¬(pages.getD i []).length = 1000) :
    fetchBatch pages i = ⟨pages.getD i [], false⟩ := by
  simp only [fetchBatch]
  rw [if_neg hz]
  congr 1
  exact beq_eq_false_iff_ne.mpr hne

theorem batchResults_succ (pages : List (List Swap)) (lo k : Nat) :
    batchResults pages lo (k + 1) =
      fetchBatch pages lo :: batchResults pages (lo + 1) k := rfl

theorem processChunk_cons_nonempty_more (s : List Swap) (rs : List BatchResult)
    (acc : List Swap) (ec : Nat) (hlen : 0 < s.length) :
    processChunk (⟨s, true⟩ :: rs) acc ec = processChunk rs (acc ++ s) 0 := by
  simp [processChunk, hlen]

theorem processChunk_cons_empty_stop (rs : List BatchResult) (acc : List Swap)
    (ec : Nat) (hec : ec + 1 < 5) :
    processChunk (⟨[], false⟩ :: rs) acc ec = ⟨acc, ec + 1, true⟩ := by
  simp [processChunk, show ¬5 ≤ ec + 1 from by omega]

theorem processChunk_cons_partial_stop (s : List Swap) (rs : List BatchResult)
    (acc : List Swap) (hlen : 0 < s.length) :
    processChunk (⟨s, false⟩ :: rs) acc 0 = ⟨acc ++ s, 0, true⟩ := by
  simp [processChunk, hlen]

theorem pagesJoin_succ (pages : List (List Swap)) (lo k : Nat) :
    pagesJoin pages lo (k + 1) = pages.getD lo [] ++ pagesJoin pages (lo + 1) k := rfl

theorem processChunk_all_full (pages : List (List Swap)) :
    ∀ (k lo : Nat) (acc : List Swap),
      (∀ i : Nat, lo ≤ i → i < lo + k → (pages.getD i []).length = 1000) →
      processChunk (batchResults pages lo k) acc 0 =
        ⟨acc ++ pagesJoin pages lo k, 0, false⟩ := by
  intro k
  induction k with
  | zero => intro lo acc _; simp [batchResults, processChunk, pagesJoin]
  | succ k ih =>
    intro lo acc h
    have hf : (pages.getD lo []).length = 1000 := h lo (le_refl lo) (by omega)
    rw [batchResults_succ, fetchBatch_full pages lo hf,
      processChunk_cons_nonempty_more _ _ _ _ (by rw [hf]; norm_num),
      ih (lo + 1) (acc ++ pages.getD lo []) (fun i h1 h2 => h i (by omega) (by omega)),
      pagesJoin_succ, ← List.append_assoc]

theorem processChunk_hits_short (pages : List (List Swap)) :
    ∀ (k lo : Nat) (acc : List Swap) (j : Nat),
      lo ≤ j → j < lo + k →
      (∀ i : Nat, lo ≤ i → i < j → (pages.getD i []).length = 1000) →
      (pages.getD j []).length < 1000 →
      ∃ e : Nat, processChunk (batchResults pages lo k) acc 0 =
        ⟨acc ++ pagesJoin pages lo (j + 1 - lo), e, true⟩ := by
  intro k
  induction k with
  | zero => intro lo acc j h1 h2 _ _; omega
  | succ k ih =>
    intro lo acc j h1 h2 hfull hshort
    rw [batchResults_succ]
    by_cases hj : j = lo
    · subst hj
      have hj1 : j + 1 - j = 1 := by omega
      rw [hj1, pagesJoin_succ]
      rw [show pagesJoin pages (j + 1) 0 = [] from rfl]
      by_cases hz : (pages.getD j []).length = 0
      · refine ⟨1, ?_⟩
        rw [fetchBatch_empty pages j hz,
          processChunk_cons_empty_stop _ _ _ (by omega)]
        rw [List.length_eq_zero.mp hz]
        simp
      · refine ⟨0, ?_⟩
        have hne : ¬(pages.getD j []).length = 1000 := by omega
        rw [fetchBatch_shortpage pages j hz hne,
          processChunk_cons_partial_stop _ _ _ (by omega)]
        simp
    · have hlo : lo < j := by omega
      have hf : (pages.getD lo []).length = 1000 := hfull lo (le_refl lo) hlo
      rw [fetchBatch_full pages lo hf,
        processChunk_cons_nonempty_more _ _ _ _ (by rw [hf]; norm_num)]
      obtain ⟨e, he⟩ := ih (lo + 1) (acc ++ pages.getD lo []) j (by omega) (by omega)
        (fun i hi1 hi2 => hfull i (by omega) hi2) hshort
      refine ⟨e, ?_⟩
      rw [he]
      have h3 : j + 1 - lo = (j + 1 - (lo + 1)) + 1 := by omega
      rw [h3, pagesJoin_succ, ← List.append_assoc]

theorem runChunks_hits_short (pages : List (List Swap)) :
    ∀ (n idx : Nat) (acc : List Swap) (j : Nat),
      idx ≤ j → j < idx + 50 * n →
      (∀ i : Nat, idx ≤ i → i < j → (pages.getD i []).length = 1000) →
      (pages.getD j []).length < 1000 →
      (runChunks pages n idx acc 0).1 = acc ++ pagesJoin pages idx (j + 1 - idx) := by
  intro n
  induction n with
  | zero => intro idx acc j h1 h2 _ _; omega
  | succ n ih =>
    intro idx acc j h1 h2 hfull hshort
    by_cases hrange : j < idx + 50
    · obtain ⟨e, hpc⟩ := processChunk_hits_short pages 50 idx acc j h1 hrange hfull hshort
      simp [runChunks, hpc]
    · have hpc := processChunk_all_full pages 50 idx acc
        (fun i hi1 hi2 => hfull i hi1 (by omega))
      simp only [runChunks, hpc]
      rw [ih (idx + 50) (acc ++ pagesJoin pages idx 50) j (by omega) (by omega)
        (fun i hi1 hi2 => hfull i (by omega) hi2) hshort]
      rw [List.append_assoc, pagesJoin_append]
      have h3 : 50 + (j + 1 - (idx + 50)) = j + 1 - idx := by omega
      rw [h3]
      simp

theorem runChunks_all_full (pages : List (List Swap)) :
    ∀ (n idx : Nat) (acc : List Swap),
      (∀ i : Nat, idx ≤ i → i < idx + 50 * n → (pages.getD i []).length = 1000) →
      (runChunks pages n idx acc 0).1 = acc ++ pagesJoin pages idx (50 * n) := by
  intro n
  induction n with
  | zero => intro idx acc _; simp [runChunks, pagesJoin]
  | succ n ih =>
    intro idx acc hfull
    have hpc := processChunk_all_full pages 50 idx acc
      (fun i hi1 hi2 => hfull i hi1 (by omega))
    simp only [runChunks, hpc]
    rw [ih (idx + 50) (acc ++ pagesJoin pages idx 50)
      (fun i hi1 hi2 => hfull i (by omega) (by omega))]
    rw [List.append_assoc, pagesJoin_append]
    have h3 : 50 + 50 * n = 50 * (n + 1) := by ring
    rw [h3]
    simp

theorem fetch_unfold_more (pages : List (List Swap))
    (hf0 : (pages.getD 0 []).length = 1000) :
    fetchPoolSwapsSuperFast pages = runChunks pages 10 1 (pages.getD 0 []) 0 := by
  have hfirst := fetchBatch_full pages 0 hf0
  simp only [fetchPoolSwapsSuperFast, hfirst]
  rw [hf0]
  simp

theorem fetch_unfold_empty (pages : List (List Swap))
    (hz : (pages.getD 0 []).length = 0) :
    fetchPoolSwapsSuperFast pages = ([], []) := by
  have hfirst := fetchBatch_empty pages 0 hz
  simp only [fetchPoolSwapsSuperFast, hfirst]
  simp

theorem fetch_unfold_shortpage (pages : List (List Swap))
    (hz : ¬(pages.getD 0 []).length = 0)
    (hne : ¬(pages.getD 0 []).length = 1000) :
    fetchPoolSwapsSuperFast pages = (pages.getD 0 [], []) := by
  have hfirst := fetchBatch_shortpage pages 0 hz hne
  simp only [fetchPoolSwapsSuperFast, hfirst]
  rw [if_neg hz]
  simp

/-- A page of 1000 identical amount-1 swaps. -/
def pageA : List Swap := List.replicate 1000 ⟨0, some 1, none⟩

/-- A page of 1000 identical amount-2 swaps, distinguishable from `pageA`. -/
def pageB : List Swap := List.replicate 1000 ⟨7, some 2, none⟩

/-- Server pages for the C1 counterexample: a full page 0, four consecutive
empty pages 1-4, then a full page 5. -/
def pagesC1 : List (List Swap) := [pageA, [], [], [], [], pageB]

/-- **C1** counterexample: four consecutive empty pages followed by a
non-empty page do NOT keep the fetch going.  On `pagesC1` (page 0 full,
pages 1-4 empty, page 5 full with 1000 amount-2 swaps) the code stops at the
very first empty page — an empty page is reported with `hasMore: false`, so
the `!result.hasMore` return fires long before the consecutive-empty counter
can reach 5 — and the page-5 records are never accumulated, contrary to the
claim that 4 consecutive empty pages followed by a non-empty page do not
trigger the stop. -/
theorem c1_counterexample :
    (fetchPoolSwapsSuperFast pagesC1).1 = pageA ∧
    (⟨7, some 2, none⟩ : Swap) ∈ pageB ∧
    (⟨7, some 2, none⟩ : Swap) ∉ (fetchPoolSwapsSuperFast pagesC1).1 := by
  have hp0 : pagesC1.getD 0 [] = pageA := rfl
  have hp1 : pagesC1.getD 1 [] = [] := rfl
  have hlenA : (pagesC1.getD 0 []).length = 1000 := by
    rw [hp0, pageA, List.length_replicate]
  have hshort1 : (pagesC1.getD 1 []).length < 1000 := by
    rw [hp1]
    decide
  have hres : (fetchPoolSwapsSuperFast pagesC1).1 = pageA := by
    rw [fetch_unfold_more pagesC1 hlenA,
      runChunks_hits_short pagesC1 10 1 (pagesC1.getD 0 []) 1 (le_refl 1)
        (by omega) (fun i hi1 hi2 => by omega) hshort1,
      show (1 : Nat) + 1 - 1 = 1 from rfl, pagesJoin_succ, hp0, hp1,
      show pagesJoin pagesC1 (1 + 1) 0 = [] from rfl]
    simp
  refine ⟨hres, ?_, ?_⟩
  · rw [pageB]
    exact List.mem_replicate.mpr ⟨by decide, rfl⟩
  · rw [hres, pageA]
    intro hmem
    have h2 := (List.mem_replicate.mp hmem).2
    simp [Swap.mk.injEq] at h2

/-- **C1** (amended): the paginated fetch stops exactly at the first page
that returns fewer than the page size of 1000 — in particular at the very
first empty page, because an empty page is reported with `hasMore: false`
and the `!result.hasMore` check fires; the 5-consecutive-empty-pages counter
can therefore never reach 5 and never triggers the stop.  When it stops it
returns everything accumulated so far, the short page's own records
included; when no short page occurs among pages 0..500, all 501 pages are
returned (the wave budget of C9 then ends the fetch). -/
theorem c1_stops_at_first_short_page (pages : List (List Swap)) :
    (∀ j : Nat, j ≤ 500 →
      (∀ i : Nat, i < j → (pages.getD i []).length = 1000) →
      (pages.getD j []).length < 1000 →
      (fetchPoolSwapsSuperFast pages).1 = pagesJoin pages 0 (j + 1)) ∧
    ((∀ i : Nat, i ≤ 500 → (pages.getD i []).length = 1000) →
      (fetchPoolSwapsSuperFast pages).1 = pagesJoin pages 0 501) := by
  constructor
  · intro j hj hfull hshort
    by_cases hj0 : j = 0
    · subst hj0
      rw [pagesJoin_succ]
      rw [show pagesJoin pages 1 0 = [] from rfl]
      by_cases hz : (pages.getD 0 []).length = 0
      · rw [fetch_unfold_empty pages hz, List.length_eq_zero.mp hz]
        simp
      · have hne : ¬(pages.getD 0 []).length = 1000 := by omega
        rw [fetch_unfold_shortpage pages hz hne]
        simp
    · have hf0 : (pages.getD 0 []).length = 1000 := hfull 0 (by omega)
      rw [fetch_unfold_more pages hf0,
        runChunks_hits_short pages 10 1 (pages.getD 0 []) j (by omega) (by omega)
          (fun i hi1 hi2 => hfull i hi2) hshort,
        pagesJoin_succ]
      have h1 : j + 1 - 1 = j := by omega
      rw [h1]
  · intro hfull
    have hf0 : (pages.getD 0 []).length = 1000 := hfull 0 (by omega)
    rw [fetch_unfold_more pages hf0,
      runChunks_all_full pages 10 1 (pages.getD 0 [])
        (fun i hi1 hi2 => hfull i (by omega)),
      show pagesJoin pages 0 501 = pages.getD 0 [] ++ pagesJoin pages 1 500 from rfl]

theorem c1_stops_at_first_short_page_witness :
    (pagesC1.getD 1 []).length < 1000 ∧
    (fetchPoolSwapsSuperFast pagesC1).1 = pagesJoin pagesC1 0 2 :=
  ⟨by rw [show pagesC1.getD 1 [] = [] from rfl]; decide,
   (c1_stops_at_first_short_page pagesC1).1 1 (by omega)
     (fun i hi => by
       rcases Nat.lt_one_iff.mp hi with rfl
       rw [show pagesC1.getD 0 [] = pageA from rfl, pageA, List.length_replicate])
     (by rw [show pagesC1.getD 1 [] = [] from rfl]; decide)⟩

/-! ## Pipeline-orchestrator lemmas (for C8) -/

theorem runChain_chain (ci : ChainInput) : (runChain ci).chain = ci.name := by
  cases hp : ci.pool with
  | none => simp [runChain, hp]
  | some p =>
    simp only [runChain, hp]
    split <;> rfl

theorem runChain_pool_none (ci : ChainInput) (h : ci.pool = none) :
    runChain ci = ⟨ci.name, false, [], none⟩ := by
  simp [runChain, h]

theorem chains_name_mem (cs : List ChainInput) (n : String) (x : List WeeklyBucket)
    (h : (n, x) ∈ (runPipeline cs).chains) : n ∈ cs.map (fun c => c.name) := by
  simp only [runPipeline] at h
  obtain ⟨r, hr, hf⟩ := List.mem_filterMap.mp h
  by_cases ho : r.ok = true
  · rw [if_pos ho] at hf
    injection hf with hpair
    obtain ⟨c, hc, rfl⟩ := List.mem_map.mp hr
    have hname := runChain_chain c
    have hn : n = c.name := by
      have := congrArg Prod.fst hpair
      simp at this
      rw [← this, hname]
    exact List.mem_map.mpr ⟨c, hc, hn.symm⟩
  · rw [if_neg ho] at hf
    cases hf

theorem meta_name_mem (cs : List ChainInput) (n : String) (m : PoolMeta)
    (h : (n, m) ∈ (runPipeline cs).poolMetadata) : n ∈ cs.map (fun c => c.name) := by
  simp only [runPipeline] at h
  obtain ⟨r, hr, hf⟩ := List.mem_filterMap.mp h
  by_cases ho : r.ok = true
  · rw [if_pos ho] at hf
    obtain ⟨mm, hmm, hpair⟩ := Option.map_eq_some'.mp hf
    obtain ⟨c, hc, rfl⟩ := List.mem_map.mp hr
    have hname := runChain_chain c
    have hn : n = c.name := by
      have := congrArg Prod.fst hpair
      simp at this
      rw [← this, hname]
    exact List.mem_map.mpr ⟨c, hc, hn.symm⟩
  · rw [if_neg ho] at hf
    cases hf

/-- **C8**: a chain whose pool-details query returns no pool is marked
failed, contributes no entry to the final `chains`/`poolMetadata` mappings
(the assembled output is exactly the concatenation of the other chains'
contributions, so no other chain's processing is affected), and increments
the failed counter by exactly 1; under distinct chain names its name is
absent from both output mappings. -/
theorem c8_pool_not_found_isolated (pre post : List ChainInput) (ci : ChainInput)
    (hpool : ci.pool = none) :
    (runChain ci).ok = false ∧
    (runPipeline (pre ++ ci :: post)).failed =
      (runPipeline pre).failed + 1 + (runPipeline post).failed ∧
    (runPipeline (pre ++ ci :: post)).chains =
      (runPipeline pre).chains ++ (runPipeline post).chains ∧
    (runPipeline (pre ++ ci :: post)).poolMetadata =
      (runPipeline pre).poolMetadata ++ (runPipeline post).poolMetadata ∧
    (((pre ++ ci :: post).map (fun c => c.name)).Nodup →
      (∀ x : List WeeklyBucket,
        (ci.name, x) ∉ (runPipeline (pre ++ ci :: post)).chains) ∧
      (∀ m : PoolMeta,
        (ci.name, m) ∉ (runPipeline (pre ++ ci :: post)).poolMetadata)) := by
  have hrc := runChain_pool_none ci hpool
  have hok : (runChain ci).ok = false := by rw [hrc]
  have hchains : (runPipeline (pre ++ ci :: post)).chains =
      (runPipeline pre).chains ++ (runPipeline post).chains := by
    simp [runPipeline, List.map_append, List.filterMap_append, hrc]
  have hmeta : (runPipeline (pre ++ ci :: post)).poolMetadata =
      (runPipeline pre).poolMetadata ++ (runPipeline post).poolMetadata := by
    simp [runPipeline, List.map_append, List.filterMap_append, hrc]
  have hfailed : (runPipeline (pre ++ ci :: post)).failed =
      (runPipeline pre).failed + 1 + (runPipeline post).failed := by
    simp [runPipeline, List.map_append, List.countP_append, List.countP_cons, hrc]
    omega
  refine ⟨hok, hfailed, hchains, hmeta, ?_⟩
  intro hnd
  have hsplit : ci.name ∉ pre.map (fun c => c.name) ∧
      ci.name ∉ post.map (fun c => c.name) := by
    rw [List.map_append, List.map_cons] at hnd
    obtain ⟨hn1, hn2, hdisj⟩ := List.nodup_append.mp hnd
    constructor
    · intro hmem
      exact hdisj hmem (List.mem_cons_self _ _)
    · exact (List.nodup_cons.mp hn2).1
  constructor
  · intro x hx
    rw [hchains] at hx
    rcases List.mem_append.mp hx with hx | hx
    · exact hsplit.1 (chains_name_mem pre ci.name x hx)
    · exact hsplit.2 (chains_name_mem post ci.name x hx)
  · intro m hm
    rw [hmeta] at hm
    rcases List.mem_append.mp hm with hm | hm
    · exact hsplit.1 (meta_name_mem pre ci.name m hm)
    · exact hsplit.2 (meta_name_mem post ci.name m hm)

/-- A healthy chain for the C8 witness. -/
def cgood : ChainInput :=
  ⟨"G", some ⟨"p", "A", "B", 500⟩, [[⟨86500, some 100, some 3000⟩]]⟩

/-- A chain whose pool-details query returns no pool. -/
def cbad : ChainInput := ⟨"X", none, []⟩

theorem c8_pool_not_found_isolated_witness :
    (runChain cbad).ok = false ∧
    (runPipeline [cgood, cbad]).failed =
      (runPipeline [cgood]).failed + 1 + (runPipeline []).failed ∧
    ("X", ([] : List WeeklyBucket)) ∉ (runPipeline [cgood, cbad]).chains := by
  have h := c8_pool_not_found_isolated [cgood] [] cbad rfl
  exact ⟨h.1, h.2.1, (h.2.2.2.2 (by decide)).1 []⟩

end UV
